import Mathlib

/-!
Verification of the chunking / lexical-relevance / answer-synthesis pipeline
of the document question-answering tool (source: `src/unnamed/part_000`,
functions `createRAGChunks`, `calculateSemanticSimilarity`,
`findRelevantChunks`, `generateResponse`).

Strings are embedded as `List Char`; scores are exact rationals `ℚ`
(the JS numbers are translated to exact arithmetic).  The embedding
follows the JavaScript source line by line.
-/

namespace RAG

/-- The set of characters matched by the JavaScript regex class `\s`
(whitespace, used by `split(/\s+/)`, `replace(/\s+/g, ' ')` and `trim`). -/
def isWs (c : Char) : Bool :=
  decide (c.toNat = 0x20 ∨ (0x9 ≤ c.toNat ∧ c.toNat ≤ 0xD) ∨ c.toNat = 0xA0 ∨
    c.toNat = 0x1680 ∨ (0x2000 ≤ c.toNat ∧ c.toNat ≤ 0x200A) ∨ c.toNat = 0x2028 ∨
    c.toNat = 0x2029 ∨ c.toNat = 0x202F ∨ c.toNat = 0x205F ∨ c.toNat = 0x3000 ∨
    c.toNat = 0xFEFF)

/-- Sentence-terminal punctuation, the class `[.!?]` of the sentence split. -/
def isPunctS (c : Char) : Bool :=
  c == '.' || c == '!' || c == '?'

/-- The JavaScript word-character class `\w`, i.e. `[A-Za-z0-9_]`
(used by the `\b` word-boundary assertion and by the token-stripping regex). -/
def wordChar (c : Char) : Bool :=
  decide (('a' ≤ c ∧ c ≤ 'z') ∨ ('A' ≤ c ∧ c ≤ 'Z') ∨ ('0' ≤ c ∧ c ≤ '9') ∨ c = '_')

/-- The Cyrillic block `Ѐ-ӿ` of the token-stripping regex. -/
def isCyr (c : Char) : Bool :=
  decide (0x400 ≤ c.toNat ∧ c.toNat ≤ 0x4FF)

/-- Characters kept by `w.replace(/[^\wЀ-ӿ]/g, '')`. -/
def keepChar (c : Char) : Bool :=
  wordChar c || isCyr c

/-- Character-wise `toLowerCase` covering the alphabets the program works
with: ASCII `A-Z` and the Cyrillic letters `Ѐ-Я`. -/
def lowerChar (c : Char) : Char :=
  if 0x41 ≤ c.toNat ∧ c.toNat ≤ 0x5A then Char.ofNat (c.toNat + 0x20)
  else if 0x410 ≤ c.toNat ∧ c.toNat ≤ 0x42F then Char.ofNat (c.toNat + 0x20)
  else if 0x400 ≤ c.toNat ∧ c.toNat ≤ 0x40F then Char.ofNat (c.toNat + 0x50)
  else c

/-- `toLowerCase` on a string. -/
def jsLower (s : List Char) : List Char :=
  s.map lowerChar

/-- A Lean string literal as a `List Char`. -/
def strL (s : String) : List Char :=
  s.data

/-- Worker for `splitRuns`: `inSep` records whether the previous character
belonged to a separator run, `acc` is the reversed current field. -/
def splitRunsAux (p : Char → Bool) : Bool → List Char → List Char → List (List Char)
  | _, acc, [] => [acc.reverse]
  | inSep, acc, c :: cs =>
    if p c then
      if inSep then splitRunsAux p true acc cs
      else acc.reverse :: splitRunsAux p true [] cs
    else splitRunsAux p false (c :: acc) cs

/-- JavaScript `String.prototype.split` on the regex `p+` (one or more
separator characters): the fields between maximal separator runs, with an
empty leading/trailing field when the string starts/ends with a separator. -/
def splitRuns (p : Char → Bool) (s : List Char) : List (List Char) :=
  splitRunsAux p false [] s

/-- JavaScript `Array.prototype.join(sep)`. -/
def joinWith (sep : List Char) : List (List Char) → List Char
  | [] => []
  | [x] => x
  | x :: y :: rest => x ++ sep ++ joinWith sep (y :: rest)

/-- `text.replace(/\s+/g, ' ')`: every maximal whitespace run becomes a
single space. -/
def replaceWs (s : List Char) : List Char :=
  joinWith [' '] (splitRuns isWs s)

/-- `dropWhile isWs`, the left half of JavaScript `trim`. -/
def trimLeft (s : List Char) : List Char :=
  s.dropWhile isWs

/-- Remove trailing whitespace, the right half of JavaScript `trim`. -/
def trimRight (s : List Char) : List Char :=
  (s.reverse.dropWhile isWs).reverse

/-- JavaScript `String.prototype.trim`. -/
def trim (s : List Char) : List Char :=
  trimRight (trimLeft s)

/-- `text.replace(/\s+/g, ' ').trim()` — the `cleanText` of `createRAGChunks`. -/
def cleanText (s : List Char) : List Char :=
  trim (replaceWs s)

/-- JavaScript `String.prototype.split(c)` for a single-character separator
(used for `currentChunk.split(' ')`): empty fields are kept. -/
def splitChar (sep : Char) : List Char → List (List Char)
  | [] => [[]]
  | c :: rest =>
    match splitChar sep rest with
    | [] => [[c]]
    | h :: t => if c = sep then [] :: h :: t else (c :: h) :: t

/-- The chunk record produced at upload time (`DocumentChunk` in the source). -/
structure DocumentChunk where
  id : List Char
  content : List Char
  chunkIndex : Nat
  wordCount : Nat
  pageNumber : Option Nat := none
  deriving DecidableEq, Repr

/-- A scored retrieval result (`RAGChunk` in the source). -/
structure RAGChunk where
  content : List Char
  score : ℚ
  source : List Char
  deriving DecidableEq, Repr

/-- Decimal digits of a natural number, as characters. -/
def natChars (n : Nat) : List Char :=
  (Nat.repr n).data

/-- The chunk record pushed by `createRAGChunks`:
`{ id: `chunk_${i}`, content: cur.trim(), chunkIndex: i,
   wordCount: cur.split(' ').length }`. -/
def mkChunk (idx : Nat) (cur : List Char) : DocumentChunk :=
  { id := strL "chunk_" ++ natChars idx
    content := trim cur
    chunkIndex := idx
    wordCount := (splitChar ' ' cur).length }

/-- The sentence candidates of `createRAGChunks`:
`cleanText.split(/[.!?]+/).filter(s => s.trim().length > 10)`. -/
def sentencesOf (text : List Char) : List (List Char) :=
  (splitRuns isPunctS (cleanText text)).filter (fun s => decide (10 < (trim s).length))

/-- The sentence-aggregation loop of `createRAGChunks`: `cur` is
`currentChunk`, `idx` is `chunkIndex`; the final `if (currentChunk.trim())`
push is the base case. -/
def chunkLoop (size : Nat) : List (List Char) → List Char → Nat → List DocumentChunk
  | [], cur, idx => if trim cur ≠ [] then [mkChunk idx cur] else []
  | s :: rest, cur, idx =>
    let t := trim s
    if size < cur.length + t.length ∧ 0 < cur.length then
      mkChunk idx cur :: chunkLoop size rest t (idx + 1)
    else
      chunkLoop size rest (cur ++ (if cur ≠ [] then [' '] else []) ++ t) idx

/-- `createRAGChunks(text, chunkSize = 300)` from the source. -/
def createRAGChunks (text : List Char) (size : Nat := 300) : List DocumentChunk :=
  if trim text = [] then []
  else chunkLoop size (sentencesOf text) [] 0

/-- The query tokens of `calculateSemanticSimilarity`:
`query.toLowerCase().split(/\s+/).filter(w => w.length > 2)
      .map(w => w.replace(/[^\wЀ-ӿ]/g, ''))`. -/
def queryWordsOf (query : List Char) : List (List Char) :=
  ((splitRuns isWs (jsLower query)).filter (fun w => decide (2 < w.length))).map
    (fun w => w.filter keepChar)

/-- Word-character status of the first character (`false` past the ends of
the string); the `\b` assertion of the regex `\b w \b` compares two of these. -/
def headWC : List Char → Bool
  | [] => false
  | c :: _ => wordChar c

/-- Whether the regex `\b w \b` matches at the current position of `s`,
where `prev` is the word-character status of the character just before the
position (`w` is assumed non-empty). -/
def matchAt (w : List Char) (prev : Bool) (s : List Char) : Bool :=
  w.isPrefixOf s && (prev != headWC s) && (headWC w.reverse != headWC (s.drop w.length))

/-- Number of word-boundary positions of a string; for an (empty) token
stripped to `""` the regex `\b\b` with flag `g` matches exactly at these
zero-width positions. `prev` is the word-character status before the
current position. -/
def bCount : Bool → List Char → Nat
  | prev, [] => if prev then 1 else 0
  | prev, c :: rest => (if prev != wordChar c then 1 else 0) + bCount (wordChar c) rest

/-- The left-to-right non-overlapping scan of `chunkLower.match(/\bw\b/g)`
for a non-empty `w`: after a match the next `w.length - 1` characters are
skipped (`skip` counts how many are still to be skipped). -/
def countScan (w : List Char) : Bool → Nat → List Char → Nat
  | _, _, [] => 0
  | prev, 0, c :: rest =>
    if matchAt w prev (c :: rest) then 1 + countScan w (wordChar c) (w.length - 1) rest
    else countScan w (wordChar c) 0 rest
  | _, k + 1, c :: rest => countScan w (wordChar c) k rest

/-- `(chunkLower.match(new RegExp('\\b' + w + '\\b', 'g')) || []).length`:
the number of exact whole-word occurrences of the token `w` in `s`. -/
def countExact (w s : List Char) : Nat :=
  if w = [] then bCount false s else countScan w false 0 s

/-- JavaScript `String.prototype.includes`: `containsSub w s` is true when
`w` occurs as a contiguous substring of `s` (the empty string occurs in
every string). -/
def containsSub (w : List Char) : List Char → Bool
  | [] => w.isEmpty
  | c :: rest => w.isPrefixOf (c :: rest) || containsSub w rest

/-- The five morphological variants `[w+'а', w+'ы', w+'и', w+'ов', w+'ах']`. -/
def variationsOf (w : List Char) : List (List Char) :=
  [w ++ ['а'], w ++ ['ы'], w ++ ['и'], w ++ ['о', 'в'], w ++ ['а', 'х']]

/-- The per-token score accumulated by `calculateSemanticSimilarity`:
`exactMatches * 0.5`, plus `0.2` for substring containment, plus `0.05`
for each morphological-variant containment. -/
def wordScore (chunkLower w : List Char) : ℚ :=
  (countExact w chunkLower : ℚ) * 0.5 +
    (if containsSub w chunkLower then (0.2 : ℚ) else 0) +
    ((variationsOf w).map
      (fun v => if containsSub v chunkLower then (0.05 : ℚ) else 0)).sum

/-- The length bonus: `0.1` when the content length lies in `[100, 500]`. -/
def lengthBonus (content : List Char) : ℚ :=
  if 100 ≤ content.length ∧ content.length ≤ 500 then 0.1 else 0

/-- The position bonus `max(0, 0.1 - (chunkIndex / totalChunks) * 0.1)`. -/
def positionBonus (total idx : Nat) : ℚ :=
  max 0 (0.1 - ((idx : ℚ) / (total : ℚ)) * 0.1)

/-- `calculateSemanticSimilarity(query, chunk)` from the source; `total` is
the ambient `documentChunks.length` used by the position bonus. -/
def calculateSemanticSimilarity (total : Nat) (query : List Char)
    (chunk : DocumentChunk) : ℚ :=
  let chunkLower := jsLower chunk.content
  let queryWords := queryWordsOf query
  if queryWords = [] then 0
  else
    let score := (queryWords.map (wordScore chunkLower)).sum
    let normalizedScore := score / (queryWords.length : ℚ)
    min (normalizedScore + lengthBonus chunk.content + positionBonus total chunk.chunkIndex) 1

/-- The human-readable source label `Чанк ${i+1} (${wordCount} слов)`. -/
def sourceLabel (chunk : DocumentChunk) : List Char :=
  strL "Чанк " ++ natChars (chunk.chunkIndex + 1) ++ strL " (" ++
    natChars chunk.wordCount ++ strL " слов)"

/-- The scored list built by `findRelevantChunks` before filtering, in
document order. -/
def scoredChunks (query : List Char) (docChunks : List DocumentChunk) : List RAGChunk :=
  docChunks.map (fun ch =>
    { content := ch.content
      score := calculateSemanticSimilarity docChunks.length query ch
      source := sourceLabel ch })

/-- Stable insertion for the descending sort by score: an element is placed
before the first element whose score is not larger, so earlier (document
order) elements stay first among equal scores — exactly the behaviour of
the stable `Array.prototype.sort((a, b) => b.score - a.score)`. -/
def insertDesc (x : RAGChunk) : List RAGChunk → List RAGChunk
  | [] => [x]
  | y :: ys => if y.score ≤ x.score then x :: y :: ys else y :: insertDesc x ys

/-- Stable descending sort by score. -/
def sortByScoreDesc : List RAGChunk → List RAGChunk
  | [] => []
  | x :: xs => insertDesc x (sortByScoreDesc xs)

/-- `findRelevantChunks(query)` from the source (with the ambient
`documentChunks` made explicit): score, filter by the `0.01` threshold,
stable sort descending, take the top 5. -/
def findRelevantChunks (query : List Char) (docChunks : List DocumentChunk) :
    List RAGChunk :=
  if docChunks = [] then []
  else
    ((sortByScoreDesc ((scoredChunks query docChunks).filter
      (fun c => decide ((0.01 : ℚ) < c.score)))).take 5)

/-- JavaScript `a || b` on strings: `b` when `a` is empty. -/
def jsOr (a b : List Char) : List Char :=
  if a = [] then b else a

/-- The "no relevant information" message returned by `generateResponse`
when the ranked chunk list is empty. -/
def noInfoMessage (query : List Char) (fileName : Option (List Char))
    (docChunksLen : Nat) : List Char :=
  strL "К сожалению, в документе \"" ++ jsOr (fileName.getD []) (strL "документ") ++
    strL "\" не найдено информации, релевантной вашему запросу \"" ++ query ++
    strL "\". \n\nВозможные причины:\n• Информация отсутствует в документе\n• Попробуйте переформулировать вопрос\n• Используйте другие ключевые слова\n\nВсего создано " ++
    natChars docChunksLen ++ strL " чанков для анализа."

/-- The title scan of `generateResponse`: the first of the given chunks
whose trimmed content has length in `(10, 200)` and contains none of the
boilerplate markers. -/
def findTitle : List DocumentChunk → Option (List Char)
  | [] => none
  | ch :: rest =>
    let content := trim ch.content
    if 10 < content.length ∧ content.length < 200 ∧
        ¬(containsSub (strL "abstract") (jsLower content) = true) ∧
        ¬(containsSub (strL "introduction") (jsLower content) = true) ∧
        ¬(containsSub (strL "keywords") (jsLower content) = true) then
      some content
    else findTitle rest

/-- The response prefix selected by the cascading keyword classification of
`generateResponse`. -/
def responseIntro (query : List Char) (top : RAGChunk)
    (docChunks : List DocumentChunk) : List Char :=
  let ql := jsLower query
  if containsSub (strL "название") ql || containsSub (strL "заголовок") ql ||
      containsSub (strL "статья") ql || containsSub (strL "title") ql then
    match findTitle (docChunks.take 3) with
    | some content => strL "Название статьи: \"" ++ content ++ strL "\"\n\n"
    | none =>
      strL "Возможное название из релевантного фрагмента: \"" ++ top.content ++
        strL "\"\n\n"
  else if containsSub (strL "автор") ql || containsSub (strL "author") ql then
    strL "Информация об авторах:\n\n"
  else if containsSub (strL "аннотация") ql || containsSub (strL "abstract") ql ||
      containsSub (strL "резюме") ql then
    strL "Аннотация:\n\n"
  else if containsSub (strL "вывод") ql || containsSub (strL "заключение") ql ||
      containsSub (strL "conclusion") ql then
    strL "Выводы:\n\n"
  else
    strL "По вашему вопросу \"" ++ query ++ strL "\" найдена следующая информация:\n\n"

/-- `highScoreChunks.slice(0, 2).map((chunk, index) => `${index+1}. ${chunk.content}`)`. -/
def numberChunks : Nat → List RAGChunk → List (List Char)
  | _, [] => []
  | i, c :: rest => (natChars (i + 1) ++ strL ". " ++ c.content) :: numberChunks (i + 1) rest

/-- The response body of `generateResponse`: the top 2 high-confidence
chunks (score above `0.3`), numbered, when at least 2 exist; otherwise the
top-ranked chunk's content alone. -/
def responseBody (chunks : List RAGChunk) (top : RAGChunk) : List Char :=
  let highScoreChunks := chunks.filter (fun c => decide ((0.3 : ℚ) < c.score))
  if 2 ≤ highScoreChunks.length then
    joinWith (strL "\n\n") (numberChunks 0 (highScoreChunks.take 2))
  else top.content

/-- JavaScript `toFixed(1)` on a non-negative number, in exact arithmetic:
round to the nearest tenth and print one decimal digit. -/
def toFixed1 (q : ℚ) : List Char :=
  let n : ℤ := ⌊q * 10 + 1 / 2⌋
  natChars (n.toNat / 10) ++ strL "." ++ natChars (n.toNat % 10)

/-- The statistics footer appended by `generateResponse`. -/
def statsInfo (chunks : List RAGChunk) (top : RAGChunk)
    (docChunks : List DocumentChunk) : List Char :=
  strL "\n\n📊 Статистика поиска:\n• Найдено релевантных фрагментов: " ++
    natChars chunks.length ++ strL "\n• Максимальная релевантность: " ++
    toFixed1 (top.score * 100) ++ strL "%\n• Проанализировано чанков: " ++
    natChars docChunks.length

/-- `generateResponse(query, chunks, fullText)` from the source. `fullText`
is accepted (as in the source) but unused; `fileName` is the ambient
`uploadedFile?.name` and `docChunks` the ambient `documentChunks`. -/
def generateResponse (query : List Char) (chunks : List RAGChunk)
    (fullText : List Char) (fileName : Option (List Char))
    (docChunks : List DocumentChunk) : List Char :=
  match chunks with
  | [] => noInfoMessage query fileName docChunks.length
  | top :: rest =>
    responseIntro query top docChunks ++ responseBody (top :: rest) top ++
      statsInfo (top :: rest) top docChunks

/-- A string with no whitespace at either edge (the invariant maintained for
`currentChunk` inside the chunking loop). -/
def NoEdgeWs (s : List Char) : Prop :=
  (∀ c ∈ s.head?, isWs c = false) ∧ (∀ c ∈ s.getLast?, isWs c = false)

/-- The 500-character content of the monotonicity counterexample: one exact
occurrence of `cat`, inside the length-bonus window `[100, 500]`. -/
def cexContent : List Char :=
  strL "cat " ++ List.replicate 496 'x'

/-- The 504-character content obtained by appending one more exact
occurrence of `cat`, now outside the length-bonus window. -/
def cexContentMore : List Char :=
  cexContent ++ strL " cat"

/-- A six-token query (so that the per-token exact-match gain `0.5 / 6` is
smaller than the `0.1` length bonus). -/
def cexQuery : List Char :=
  strL "cat q11 q22 q33 q44 q55"

/-- A document chunk with the given content at index 0. -/
def cexChunk (content : List Char) : DocumentChunk :=
  { id := strL "chunk_0", content := content, chunkIndex := 0, wordCount := 0 }

/-- The two-sentence text whose chunk exceeds the target size by one:
two 150-character sentences whose lengths sum to exactly the 300-character
target, so that the unseparated-length check passes and the joining space
pushes the chunk to 301 characters. -/
def cexText301 : List Char :=
  List.replicate 150 'a' ++ strL ". " ++ List.replicate 150 'b' ++ strL "."

/-! ## Basic facts about characters, `containsSub` and `isPrefixOf` -/

theorem toNat_ofNat_of_lt {n : Nat} (h : n < 55296) : (Char.ofNat n).toNat = n := by
  have hv : n.isValidChar := Or.inl h
  rw [Char.ofNat, dif_pos hv]
  rfl

theorem isWs_lowerChar (c : Char) : isWs (lowerChar c) = isWs c := by
  unfold lowerChar
  split
  · next h =>
    rw [isWs, isWs, toNat_ofNat_of_lt (by omega)]
    rw [decide_eq_false (by omega), decide_eq_false (by omega)]
  · split
    · next h =>
      rw [isWs, isWs, toNat_ofNat_of_lt (by omega)]
      rw [decide_eq_false (by omega), decide_eq_false (by omega)]
    · split
      · next h =>
        rw [isWs, isWs, toNat_ofNat_of_lt (by omega)]
        rw [decide_eq_false (by omega), decide_eq_false (by omega)]
      · rfl

theorem isPrefixOf_append_left {w s d : List Char} (h : w.isPrefixOf s = true) :
    w.isPrefixOf (s ++ d) = true := by
  induction w generalizing s with
  | nil => simp [List.isPrefixOf]
  | cons a as ih =>
    cases s with
    | nil => simp [List.isPrefixOf] at h
    | cons b bs =>
      simp only [List.cons_append, List.isPrefixOf_cons₂] at h ⊢
      rcases Bool.and_eq_true_iff.mp h with ⟨h1, h2⟩
      exact Bool.and_eq_true_iff.mpr ⟨h1, ih h2⟩

theorem isPrefixOf_length_le {w s : List Char} (h : w.isPrefixOf s = true) :
    w.length ≤ s.length := by
  induction w generalizing s with
  | nil => simp
  | cons a as ih =>
    cases s with
    | nil => simp [List.isPrefixOf] at h
    | cons b bs =>
      rw [List.isPrefixOf_cons₂] at h
      rcases Bool.and_eq_true_iff.mp h with ⟨_, h2⟩
      simpa using ih h2

theorem isPrefixOf_append_space {w x d : List Char} (hw : ' ' ∉ w) :
    w.isPrefixOf (x ++ ' ' :: d) = w.isPrefixOf x := by
  induction w generalizing x with
  | nil => simp [List.isPrefixOf]
  | cons a as ih =>
    cases x with
    | nil =>
      have ha : a ≠ ' ' := fun h => hw (h ▸ List.mem_cons_self a as)
      simp [List.isPrefixOf_cons₂, List.isPrefixOf, Bool.and_eq_true_iff, ha]
    | cons b bs =>
      rw [List.cons_append, List.isPrefixOf_cons₂, List.isPrefixOf_cons₂,
        ih (fun h => hw (List.mem_cons_of_mem a h))]

theorem containsSub_nil_left (s : List Char) : containsSub [] s = true := by
  induction s with
  | nil => rfl
  | cons c rest ih => simp [containsSub, List.isPrefixOf]

theorem containsSub_append {w s d : List Char} (h : containsSub w s = true) :
    containsSub w (s ++ d) = true := by
  induction s with
  | nil =>
    rw [containsSub, List.isEmpty_iff] at h
    subst h
    exact containsSub_nil_left d
  | cons c rest ih =>
    rw [containsSub, Bool.or_eq_true_iff] at h
    rw [List.cons_append, containsSub, Bool.or_eq_true_iff]
    rcases h with h | h
    · exact Or.inl (by rw [← List.cons_append]; exact isPrefixOf_append_left h)
    · exact Or.inr (ih h)

/-! ## Facts about `trim` -/

theorem dropWhile_headq (p : Char → Bool) (l : List Char) :
    ∀ c ∈ (l.dropWhile p).head?, p c = false := by
  induction l with
  | nil => simp [List.dropWhile]
  | cons c cs ih =>
    by_cases hc : p c
    · rw [List.dropWhile_cons, if_pos hc]
      exact ih
    · rw [List.dropWhile_cons, if_neg hc]
      intro x hx
      rw [List.head?_cons, Option.mem_some_iff] at hx
      subst hx
      exact Bool.not_eq_true _ ▸ hc

theorem trimRight_isPre (x : List Char) : trimRight x <+: x := by
  have h1 : x.reverse.dropWhile isWs <:+ x.reverse := List.dropWhile_suffix isWs
  have h2 : (trimRight x).reverse <:+ x.reverse := by
    rw [trimRight, List.reverse_reverse]
    exact h1
  exact List.reverse_suffix.mp h2

theorem trim_eq_self {s : List Char} (h : NoEdgeWs s) : trim s = s := by
  have hleft : trimLeft s = s := by
    cases s with
    | nil => rfl
    | cons c cs =>
      have hc : isWs c = false := h.1 c (by simp)
      rw [trimLeft, List.dropWhile_cons, if_neg (by simp [hc])]
  have hright : trimRight s = s := by
    rcases hr : s.reverse with _ | ⟨c, cs⟩
    · rw [trimRight, hr, List.dropWhile_nil, List.reverse_nil,
        ← List.reverse_eq_nil_iff.mp hr]
    · have hc : isWs c = false := by
        apply h.2 c
        rw [← List.head?_reverse, hr, List.head?_cons]
        simp
      rw [trimRight, hr, List.dropWhile_cons, if_neg (by simp [hc]), ← hr,
        List.reverse_reverse]
  rw [trim, hleft, hright]

theorem noEdgeWs_trim (s : List Char) : NoEdgeWs (trim s) := by
  constructor
  · intro c hc
    rcases ht : trim s with _ | ⟨c0, r⟩
    · rw [ht] at hc; simp at hc
    · rw [ht, List.head?_cons, Option.mem_some_iff] at hc
      obtain ⟨t, htpre⟩ := trimRight_isPre (trimLeft s)
      rw [trim] at ht
      rw [ht] at htpre
      apply dropWhile_headq isWs s c
      show c ∈ (trimLeft s).head?
      rw [← htpre, List.cons_append, List.head?_cons, Option.mem_some_iff]
      exact hc
  · intro c hc
    rw [trim, trimRight, List.getLast?_reverse] at hc
    exact dropWhile_headq isWs (trimLeft s).reverse c hc

theorem trim_trim (s : List Char) : trim (trim s) = trim s :=
  trim_eq_self (noEdgeWs_trim s)

theorem noEdgeWs_nil : NoEdgeWs ([] : List Char) := by
  constructor <;> simp

theorem noEdgeWs_append {a b : List Char} (m : Char) (ha : NoEdgeWs a)
    (hb : NoEdgeWs b) (na : a ≠ []) (nb : b ≠ []) : NoEdgeWs (a ++ m :: b) := by
  constructor
  · intro c hc
    rcases a with _ | ⟨x, a'⟩
    · exact absurd rfl na
    · rw [List.cons_append, List.head?_cons, Option.mem_some_iff] at hc
      rw [← hc]
      exact ha.1 x (by simp)
  · intro c hc
    rw [List.getLast?_append] at hc
    rcases b with _ | ⟨y, b'⟩
    · exact absurd rfl nb
    · rw [List.getLast?_cons_cons] at hc
      have : (y :: b').getLast? = some c := by
        rcases h' : (y :: b').getLast? with _ | z
        · exact absurd (List.getLast?_eq_none_iff.mp h') (List.cons_ne_nil y b')
        · rw [h', Option.or_some] at hc
          simpa using hc
      exact hb.2 c this

theorem trim_eq_nil_iff {s : List Char} : trim s = [] ↔ ∀ c ∈ s, isWs c = true := by
  constructor
  · intro h c hc
    rw [trim, trimRight, List.reverse_eq_nil_iff] at h
    have hall : ∀ x ∈ (trimLeft s).reverse, isWs x = true :=
      List.dropWhile_eq_nil_iff.mp h
    have hall2 : ∀ x ∈ trimLeft s, isWs x = true := fun x hx =>
      hall x (List.mem_reverse.mpr hx)
    have := List.takeWhile_append_dropWhile isWs s
    rw [← this, List.mem_append] at hc
    rcases hc with hc | hc
    · exact List.mem_takeWhile_imp hc
    · exact hall2 c hc
  · intro h
    have : trimLeft s = [] := List.dropWhile_eq_nil_iff.mpr h
    rw [trim, this]
    rfl

/-! ## Facts about `splitRuns` and `joinWith` -/

theorem splitRunsAux_map {p : Char → Bool} {f : Char → Char}
    (hp : ∀ c, p (f c) = p c) (l : List Char) :
    ∀ (inSep : Bool) (acc : List Char),
      splitRunsAux p inSep (acc.map f) (l.map f) =
        (splitRunsAux p inSep acc l).map (List.map f) := by
  induction l with
  | nil =>
    intro inSep acc
    simp [splitRunsAux]
  | cons c cs ih =>
    intro inSep acc
    rw [List.map_cons, splitRunsAux.eq_def]
    conv_rhs => rw [splitRunsAux.eq_def]
    simp only [hp c]
    by_cases hc : p c
    · rw [if_pos hc, if_pos hc]
      cases inSep with
      | true => simpa using ih true acc
      | false =>
        simp only [Bool.false_eq_true, if_neg (by simp : ¬False)]
        rw [List.map_cons]
        congr 1
        · simp
        · simpa using ih true []
    · rw [if_neg hc, if_neg hc]
      have := ih false (c :: acc)
      simpa using this

theorem splitRuns_jsLower (s : List Char) :
    splitRuns isWs (jsLower s) = (splitRuns isWs s).map (List.map lowerChar) := by
  have := splitRunsAux_map (p := isWs) (f := lowerChar) isWs_lowerChar s false []
  simpa [splitRuns, jsLower] using this

theorem splitRunsAux_chars {p : Char → Bool} (l : List Char) :
    ∀ (inSep : Bool) (acc : List Char) (x : List Char),
      x ∈ splitRunsAux p inSep acc l →
      ∀ c ∈ x, c ∈ acc ∨ (c ∈ l ∧ p c = false) := by
  induction l with
  | nil =>
    intro inSep acc x hx c hc
    simp only [splitRunsAux, List.mem_singleton] at hx
    subst hx
    exact Or.inl (List.mem_reverse.mp hc)
  | cons a cs ih =>
    intro inSep acc x hx c hc
    simp only [splitRunsAux] at hx
    by_cases ha : p a
    · rw [if_pos ha] at hx
      cases inSep with
      | true =>
        simp only [if_pos rfl] at hx
        rcases ih true acc x hx c hc with h | ⟨h1, h2⟩
        · exact Or.inl h
        · exact Or.inr ⟨List.mem_cons_of_mem a h1, h2⟩
      | false =>
        simp only [Bool.false_eq_true, if_neg (by simp : ¬False), List.mem_cons] at hx
        rcases hx with hx | hx
        · subst hx
          exact Or.inl (List.mem_reverse.mp hc)
        · rcases ih true [] x hx c hc with h | ⟨h1, h2⟩
          · simp at h
          · exact Or.inr ⟨List.mem_cons_of_mem a h1, h2⟩
    · rw [if_neg ha] at hx
      rcases ih false (a :: acc) x hx c hc with h | ⟨h1, h2⟩
      · rcases List.mem_cons.mp h with h | h
        · rw [h]
          exact Or.inr ⟨List.mem_cons_self a cs, by simpa using ha⟩
        · exact Or.inl h
      · exact Or.inr ⟨List.mem_cons_of_mem a h1, h2⟩

theorem joinWith_cons (sep : List Char) (x : List Char) (l : List (List Char))
    (hl : l ≠ []) : joinWith sep (x :: l) = x ++ sep ++ joinWith sep l := by
  cases l with
  | nil => exact absurd rfl hl
  | cons y rest => rfl

theorem joinWith_group (a b : List Char) (l : List (List Char)) :
    joinWith [' '] ((a ++ ' ' :: b) :: l) = joinWith [' '] (a :: b :: l) := by
  cases l with
  | nil =>
    show a ++ ' ' :: b = a ++ [' '] ++ b
    simp
  | cons y rest =>
    rw [joinWith_cons _ _ _ (List.cons_ne_nil _ _),
      joinWith_cons _ _ _ (List.cons_ne_nil _ _),
      joinWith_cons _ _ _ (List.cons_ne_nil _ _)]
    simp

theorem joinWith_all_nil {l : List (List Char)} (h : ∀ x ∈ l, x = []) :
    ∀ c ∈ joinWith [' '] l, c = ' ' := by
  induction l with
  | nil => simp [joinWith]
  | cons x rest ih =>
    intro c hc
    cases rest with
    | nil =>
      rw [show joinWith [' '] [x] = x from rfl, h x (by simp)] at hc
      simp at hc
    | cons y r2 =>
      rw [joinWith_cons _ _ _ (List.cons_ne_nil _ _), h x (by simp)] at hc
      simp only [List.nil_append, List.cons_append, List.mem_cons] at hc
      rcases hc with hc | hc
      · exact hc
      · exact ih (fun z hz => h z (List.mem_cons_of_mem x hz)) c (by simpa using hc)

theorem cleanText_of_trim_nil {text : List Char} (h : trim text = []) :
    cleanText text = [] := by
  have hws : ∀ c ∈ text, isWs c = true := trim_eq_nil_iff.mp h
  have hfields : ∀ x ∈ splitRuns isWs text, x = [] := by
    intro x hx
    rw [List.eq_nil_iff_forall_not_mem]
    intro c hc
    rcases splitRunsAux_chars text false [] x hx c hc with hmem | ⟨h1, h2⟩
    · simp at hmem
    · rw [hws c h1] at h2
      simp at h2
  have hsp : ∀ c ∈ replaceWs text, isWs c = true := by
    intro c hc
    rw [joinWith_all_nil hfields c hc]
    decide
  exact trim_eq_nil_iff.mpr hsp

theorem sentencesOf_of_trim_nil {text : List Char} (h : trim text = []) :
    sentencesOf text = [] := by
  rw [sentencesOf, cleanText_of_trim_nil h]
  rfl

/-! ## Facts about the chunking loop -/

theorem chunkLoop_nil (size : Nat) (cur : List Char) (idx : Nat) :
    chunkLoop size [] cur idx = if trim cur ≠ [] then [mkChunk idx cur] else [] :=
  rfl

theorem chunkLoop_cons_push {size : Nat} {s cur : List Char} (rest : List (List Char))
    (idx : Nat) (h : size < cur.length + (trim s).length ∧ 0 < cur.length) :
    chunkLoop size (s :: rest) cur idx =
      mkChunk idx cur :: chunkLoop size rest (trim s) (idx + 1) := by
  simp only [chunkLoop]
  rw [if_pos h]

theorem chunkLoop_cons_app {size : Nat} {s cur : List Char} (rest : List (List Char))
    (idx : Nat) (h : ¬(size < cur.length + (trim s).length ∧ 0 < cur.length)) :
    chunkLoop size (s :: rest) cur idx =
      chunkLoop size rest (cur ++ (if cur ≠ [] then [' '] else []) ++ trim s) idx := by
  simp only [chunkLoop]
  rw [if_neg h]

theorem cur_append_of_ne_nil {cur : List Char} (t : List Char) (h : cur ≠ []) :
    cur ++ (if cur ≠ [] then [' '] else []) ++ t = cur ++ ' ' :: t := by
  rw [if_pos h]
  simp

theorem cur_append_of_nil {cur : List Char} (t : List Char) (h : cur = []) :
    cur ++ (if cur ≠ [] then [' '] else []) ++ t = t := by
  subst h
  simp

theorem chunkLoop_indices (size : Nat) (ss : List (List Char)) :
    ∀ (cur : List Char) (idx : Nat),
      (chunkLoop size ss cur idx).map (·.chunkIndex) =
        List.range' idx (chunkLoop size ss cur idx).length := by
  induction ss with
  | nil =>
    intro cur idx
    rw [chunkLoop_nil]
    by_cases h : trim cur ≠ []
    · rw [if_pos h]
      simp [mkChunk, List.range']
    · rw [if_neg h]
      simp [List.range']
  | cons s rest ih =>
    intro cur idx
    by_cases h : size < cur.length + (trim s).length ∧ 0 < cur.length
    · rw [chunkLoop_cons_push rest idx h]
      rw [List.map_cons, List.length_cons, List.range'_succ, ih]
      rfl
    · rw [chunkLoop_cons_app rest idx h]
      exact ih _ idx

theorem chunkLoop_content (size : Nat) (ss : List (List Char)) :
    ∀ (cur : List Char) (idx : Nat), (∀ s ∈ ss, trim s ≠ []) → NoEdgeWs cur →
      ∀ ch ∈ chunkLoop size ss cur idx,
        ch.content ≠ [] ∧ trim ch.content = ch.content ∧
          (ch.content.length ≤ size + 1 ∨ ch.content ∈ ss.map trim ∨ ch.content = cur) := by
  induction ss with
  | nil =>
    intro cur idx _ hcur ch hch
    rw [chunkLoop_nil] at hch
    by_cases h : trim cur ≠ []
    · rw [if_pos h, List.mem_singleton] at hch
      subst hch
      refine ⟨h, trim_trim cur, Or.inr (Or.inr ?_)⟩
      show trim cur = cur
      exact trim_eq_self hcur
    · rw [if_neg h] at hch
      simp at hch
  | cons s rest ih =>
    intro cur idx hss hcur ch hch
    have hs : trim s ≠ [] := hss s (List.mem_cons_self s rest)
    have hrest : ∀ x ∈ rest, trim x ≠ [] := fun x hx => hss x (List.mem_cons_of_mem s hx)
    by_cases h : size < cur.length + (trim s).length ∧ 0 < cur.length
    · rw [chunkLoop_cons_push rest idx h, List.mem_cons] at hch
      rcases hch with hch | hch
      · subst hch
        have hcc : trim cur = cur := trim_eq_self hcur
        refine ⟨?_, trim_trim cur, Or.inr (Or.inr hcc)⟩
        show trim cur ≠ []
        rw [hcc]
        exact List.ne_nil_of_length_pos h.2
      · rcases ih (trim s) (idx + 1) hrest (noEdgeWs_trim s) ch hch with ⟨h1, h2, h3⟩
        refine ⟨h1, h2, ?_⟩
        rcases h3 with h3 | h3 | h3
        · exact Or.inl h3
        · exact Or.inr (Or.inl (by rw [List.map_cons]; exact List.mem_cons_of_mem _ h3))
        · exact Or.inr (Or.inl (by rw [List.map_cons, h3]; exact List.mem_cons_self _ _))
    · rw [chunkLoop_cons_app rest idx h] at hch
      by_cases hc0 : cur = []
      · rw [cur_append_of_nil _ hc0] at hch
        rcases ih (trim s) idx hrest (noEdgeWs_trim s) ch hch with ⟨h1, h2, h3⟩
        refine ⟨h1, h2, ?_⟩
        rcases h3 with h3 | h3 | h3
        · exact Or.inl h3
        · exact Or.inr (Or.inl (by rw [List.map_cons]; exact List.mem_cons_of_mem _ h3))
        · exact Or.inr (Or.inl (by rw [List.map_cons, h3]; exact List.mem_cons_self _ _))
      · rw [cur_append_of_ne_nil _ hc0] at hch
        have hlen : cur.length + (trim s).length ≤ size := by
          rcases Nat.lt_or_ge size (cur.length + (trim s).length) with hlt | hge
          · exact absurd ⟨hlt, List.length_pos.mpr hc0⟩ h
          · exact hge
        have hne : NoEdgeWs (cur ++ ' ' :: trim s) :=
          noEdgeWs_append ' ' hcur (noEdgeWs_trim s) hc0 hs
        rcases ih (cur ++ ' ' :: trim s) idx hrest hne ch hch with ⟨h1, h2, h3⟩
        refine ⟨h1, h2, ?_⟩
        rcases h3 with h3 | h3 | h3
        · exact Or.inl h3
        · exact Or.inr (Or.inl (by rw [List.map_cons]; exact List.mem_cons_of_mem _ h3))
        · refine Or.inl ?_
          rw [h3]
          simp only [List.length_append, List.length_cons]
          omega

theorem chunkLoop_ne_nil (size : Nat) (ss : List (List Char)) :
    ∀ (cur : List Char) (idx : Nat), (∀ s ∈ ss, trim s ≠ []) → NoEdgeWs cur →
      cur ≠ [] → chunkLoop size ss cur idx ≠ [] := by
  induction ss with
  | nil =>
    intro cur idx _ hcur hc0
    rw [chunkLoop_nil, if_pos (by rw [trim_eq_self hcur]; exact hc0)]
    exact List.cons_ne_nil _ _
  | cons s rest ih =>
    intro cur idx hss hcur hc0
    have hs : trim s ≠ [] := hss s (List.mem_cons_self s rest)
    have hrest : ∀ x ∈ rest, trim x ≠ [] := fun x hx => hss x (List.mem_cons_of_mem s hx)
    by_cases h : size < cur.length + (trim s).length ∧ 0 < cur.length
    · rw [chunkLoop_cons_push rest idx h]
      exact List.cons_ne_nil _ _
    · rw [chunkLoop_cons_app rest idx h, cur_append_of_ne_nil _ hc0]
      exact ih _ idx hrest (noEdgeWs_append ' ' hcur (noEdgeWs_trim s) hc0 hs)
        (by simp)

theorem chunkLoop_join (size : Nat) (ss : List (List Char)) :
    ∀ (cur : List Char) (idx : Nat), (∀ s ∈ ss, trim s ≠ []) → NoEdgeWs cur →
      joinWith [' '] ((chunkLoop size ss cur idx).map (·.content)) =
        joinWith [' '] ((if cur = [] then [] else [cur]) ++ ss.map trim) := by
  induction ss with
  | nil =>
    intro cur idx _ hcur
    rw [chunkLoop_nil]
    by_cases hc0 : cur = []
    · rw [if_neg (by rw [hc0]; exact fun hh => hh rfl), if_pos hc0]
      rfl
    · rw [if_pos (by rw [trim_eq_self hcur]; exact hc0), if_neg hc0]
      show joinWith [' '] [trim cur] = joinWith [' '] [cur]
      rw [trim_eq_self hcur]
  | cons s rest ih =>
    intro cur idx hss hcur
    have hs : trim s ≠ [] := hss s (List.mem_cons_self s rest)
    have hrest : ∀ x ∈ rest, trim x ≠ [] := fun x hx => hss x (List.mem_cons_of_mem s hx)
    by_cases h : size < cur.length + (trim s).length ∧ 0 < cur.length
    · rw [chunkLoop_cons_push rest idx h]
      have hc0 : cur ≠ [] := List.ne_nil_of_length_pos h.2
      have hrecne : chunkLoop size rest (trim s) (idx + 1) ≠ [] :=
        chunkLoop_ne_nil size rest (trim s) (idx + 1) hrest (noEdgeWs_trim s) hs
      rw [List.map_cons]
      rw [joinWith_cons _ _ _ (by simpa using hrecne)]
      rw [ih (trim s) (idx + 1) hrest (noEdgeWs_trim s)]
      rw [if_neg hs]
      show (mkChunk idx cur).content ++ [' '] ++ _ = _
      have : (mkChunk idx cur).content = cur := trim_eq_self hcur
      rw [this, if_neg hc0]
      rw [List.map_cons]
      simp only [List.singleton_append]
      rw [joinWith_cons _ _ _ (List.cons_ne_nil _ _)]
    · rw [chunkLoop_cons_app rest idx h]
      by_cases hc0 : cur = []
      · rw [cur_append_of_nil _ hc0, ih (trim s) idx hrest (noEdgeWs_trim s),
          if_neg hs, if_pos hc0, List.map_cons]
        rfl
      · rw [cur_append_of_ne_nil _ hc0,
          ih (cur ++ ' ' :: trim s) idx hrest
            (noEdgeWs_append ' ' hcur (noEdgeWs_trim s) hc0 hs),
          if_neg (by simp : ¬cur ++ ' ' :: trim s = []), if_neg hc0, List.map_cons]
        show joinWith [' '] ((cur ++ ' ' :: trim s) :: rest.map trim) = _
        rw [joinWith_group]
        rfl

/-! ## Facts about the scorer -/

theorem wordChar_space : wordChar ' ' = false := by decide

theorem lowerChar_space : lowerChar ' ' = ' ' := by decide

theorem headWC_append_space (x d : List Char) : headWC (x ++ ' ' :: d) = headWC x := by
  cases x with
  | nil => simp [headWC, wordChar_space]
  | cons c r => rfl

theorem matchAt_append_space {w : List Char} (hw : ' ' ∉ w) (prev : Bool)
    (x d : List Char) : matchAt w prev (x ++ ' ' :: d) = matchAt w prev x := by
  unfold matchAt
  rw [isPrefixOf_append_space hw]
  by_cases hp : w.isPrefixOf x = true
  · have hlen : w.length ≤ x.length := isPrefixOf_length_le hp
    rw [headWC_append_space, List.drop_append_of_le_length hlen, headWC_append_space]
  · simp only [Bool.not_eq_true] at hp
    rw [hp]
    simp

theorem countScan_append_space {w : List Char} (hw : ' ' ∉ w) (d : List Char) :
    ∀ (x : List Char) (prev : Bool) (skip : Nat),
      countScan w prev skip x ≤ countScan w prev skip (x ++ ' ' :: d) := by
  intro x
  induction x with
  | nil =>
    intro prev skip
    rw [List.nil_append]
    simp only [countScan]
    exact Nat.zero_le _
  | cons a x' ih =>
    intro prev skip
    rw [List.cons_append]
    cases skip with
    | succ k =>
      simp only [countScan]
      exact ih (wordChar a) k
    | zero =>
      simp only [countScan]
      rw [← List.cons_append, matchAt_append_space hw]
      by_cases hm : matchAt w prev (a :: x') = true
      · rw [if_pos hm, if_pos hm]
        exact Nat.add_le_add_left (ih (wordChar a) (w.length - 1)) 1
      · rw [if_neg hm, if_neg hm]
        exact ih (wordChar a) 0

theorem bCount_append_space (d : List Char) :
    ∀ (x : List Char) (prev : Bool), bCount prev x ≤ bCount prev (x ++ ' ' :: d) := by
  intro x
  induction x with
  | nil =>
    intro prev
    show bCount prev [] ≤ bCount prev (' ' :: d)
    simp only [bCount, wordChar_space]
    cases prev <;> simp [Nat.le_add_right]
  | cons a x' ih =>
    intro prev
    rw [List.cons_append]
    simp only [bCount]
    exact Nat.add_le_add_left (ih (wordChar a)) _

theorem countExact_append_space {w : List Char} (hw : ' ' ∉ w) (x d : List Char) :
    countExact w x ≤ countExact w (x ++ ' ' :: d) := by
  unfold countExact
  by_cases h : w = []
  · rw [if_pos h, if_pos h]
    exact bCount_append_space d x false
  · rw [if_neg h, if_neg h]
    exact countScan_append_space hw d x false 0

theorem wordScore_nonneg (cl w : List Char) : 0 ≤ wordScore cl w := by
  unfold wordScore
  have h1 : (0 : ℚ) ≤ (countExact w cl : ℚ) * 0.5 :=
    mul_nonneg (Nat.cast_nonneg _) (by norm_num)
  have h2 : (0 : ℚ) ≤ if containsSub w cl = true then (0.2 : ℚ) else 0 := by
    split <;> norm_num
  have h3 : (0 : ℚ) ≤ ((variationsOf w).map
      (fun v => if containsSub v cl = true then (0.05 : ℚ) else 0)).sum := by
    apply List.sum_nonneg
    intro x hx
    rcases List.mem_map.mp hx with ⟨v, _, rfl⟩
    split <;> norm_num
  linarith

theorem wordScore_append_space {w : List Char} (hw : ' ' ∉ w) (c d : List Char) :
    wordScore c w ≤ wordScore (c ++ ' ' :: d) w := by
  unfold wordScore
  have h1 : (countExact w c : ℚ) * 0.5 ≤ (countExact w (c ++ ' ' :: d) : ℚ) * 0.5 :=
    mul_le_mul_of_nonneg_right (Nat.cast_le.mpr (countExact_append_space hw c d))
      (by norm_num)
  have h2 : (if containsSub w c = true then (0.2 : ℚ) else 0) ≤
      (if containsSub w (c ++ ' ' :: d) = true then (0.2 : ℚ) else 0) := by
    by_cases h : containsSub w c = true
    · rw [if_pos h, if_pos (containsSub_append h)]
    · rw [if_neg h]
      split <;> norm_num
  have h3 : ((variationsOf w).map
        (fun v => if containsSub v c = true then (0.05 : ℚ) else 0)).sum ≤
      ((variationsOf w).map
        (fun v => if containsSub v (c ++ ' ' :: d) = true then (0.05 : ℚ) else 0)).sum := by
    apply List.sum_le_sum
    intro v _
    by_cases h : containsSub v c = true
    · rw [if_pos h, if_pos (containsSub_append h)]
    · rw [if_neg h]
      split <;> norm_num
  linarith

theorem queryWords_no_space (query : List Char) :
    ∀ w ∈ queryWordsOf query, ' ' ∉ w := by
  intro w hw hsp
  rcases List.mem_map.mp hw with ⟨w0, _, rfl⟩
  have := List.mem_filter.mp hsp
  have hk : keepChar ' ' = true := this.2
  exact absurd hk (by decide)

theorem lengthBonus_nonneg (content : List Char) : 0 ≤ lengthBonus content := by
  unfold lengthBonus
  split <;> norm_num

theorem positionBonus_nonneg (total idx : Nat) : 0 ≤ positionBonus total idx :=
  le_max_left 0 _

theorem positionBonus_zero (total : Nat) : positionBonus total 0 = 0.1 := by
  unfold positionBonus
  rw [Nat.cast_zero, zero_div, zero_mul, sub_zero]
  exact max_eq_right (by norm_num)

theorem calcSim_nonneg (total : Nat) (query : List Char) (ch : DocumentChunk) :
    0 ≤ calculateSemanticSimilarity total query ch := by
  unfold calculateSemanticSimilarity
  by_cases hq : queryWordsOf query = []
  · rw [if_pos hq]
  · rw [if_neg hq]
    apply le_min _ (by norm_num : (0:ℚ) ≤ 1)
    have h1 : (0 : ℚ) ≤ ((queryWordsOf query).map (wordScore (jsLower ch.content))).sum :=
      List.sum_nonneg fun x hx => by
        rcases List.mem_map.mp hx with ⟨w, _, rfl⟩
        exact wordScore_nonneg _ _
    have h2 : (0 : ℚ) ≤ ((queryWordsOf query).map (wordScore (jsLower ch.content))).sum /
        ((queryWordsOf query).length : ℚ) := div_nonneg h1 (Nat.cast_nonneg _)
    have h3 := lengthBonus_nonneg ch.content
    have h4 := positionBonus_nonneg total ch.chunkIndex
    linarith

theorem calcSim_le_one (total : Nat) (query : List Char) (ch : DocumentChunk) :
    calculateSemanticSimilarity total query ch ≤ 1 := by
  unfold calculateSemanticSimilarity
  by_cases hq : queryWordsOf query = []
  · rw [if_pos hq]
    norm_num
  · rw [if_neg hq]
    exact min_le_right _ _

theorem calcSim_of_index_zero {query : List Char} (hq : queryWordsOf query ≠ [])
    (total : Nat) (ch : DocumentChunk) (hidx : ch.chunkIndex = 0) :
    0.1 ≤ calculateSemanticSimilarity total query ch := by
  unfold calculateSemanticSimilarity
  rw [if_neg hq]
  apply le_min _ (by norm_num : (0.1 : ℚ) ≤ 1)
  have h1 : (0 : ℚ) ≤ ((queryWordsOf query).map (wordScore (jsLower ch.content))).sum /
      ((queryWordsOf query).length : ℚ) :=
    div_nonneg
      (List.sum_nonneg fun x hx => by
        rcases List.mem_map.mp hx with ⟨w, _, rfl⟩
        exact wordScore_nonneg _ _)
      (Nat.cast_nonneg _)
  have h2 := lengthBonus_nonneg ch.content
  have h3 : positionBonus total ch.chunkIndex = 0.1 := by
    rw [hidx]
    exact positionBonus_zero total
  linarith

theorem jsLower_append_space (a d : List Char) :
    jsLower (a ++ ' ' :: d) = jsLower a ++ ' ' :: jsLower d := by
  unfold jsLower
  rw [List.map_append, List.map_cons, lowerChar_space]

theorem queryWordsOf_eq_nil {query : List Char}
    (h : ∀ w ∈ splitRuns isWs query, w.length ≤ 2) : queryWordsOf query = [] := by
  unfold queryWordsOf
  rw [List.map_eq_nil_iff, List.filter_eq_nil_iff]
  intro w hw
  rw [splitRuns_jsLower] at hw
  rcases List.mem_map.mp hw with ⟨w0, hw0, rfl⟩
  have := h w0 hw0
  simp only [List.length_map, decide_eq_true_eq]
  omega

theorem calcSim_zero_of_short_tokens {query : List Char}
    (h : ∀ w ∈ splitRuns isWs query, w.length ≤ 2) (total : Nat)
    (ch : DocumentChunk) : calculateSemanticSimilarity total query ch = 0 := by
  unfold calculateSemanticSimilarity
  rw [if_pos (queryWordsOf_eq_nil h)]

/-! ## Facts about the stable descending sort -/

theorem mem_insertDesc {x y : RAGChunk} {l : List RAGChunk} :
    x ∈ insertDesc y l ↔ x = y ∨ x ∈ l := by
  induction l with
  | nil => simp [insertDesc]
  | cons z zs ih =>
    unfold insertDesc
    by_cases h : z.score ≤ y.score
    · rw [if_pos h]
      simp [List.mem_cons]
    · rw [if_neg h]
      rw [List.mem_cons, ih, List.mem_cons]
      tauto

theorem mem_sortByScoreDesc {x : RAGChunk} {l : List RAGChunk} :
    x ∈ sortByScoreDesc l ↔ x ∈ l := by
  induction l with
  | nil => simp [sortByScoreDesc]
  | cons z zs ih =>
    unfold sortByScoreDesc
    rw [mem_insertDesc, ih, List.mem_cons]

theorem length_insertDesc (x : RAGChunk) (l : List RAGChunk) :
    (insertDesc x l).length = l.length + 1 := by
  induction l with
  | nil => rfl
  | cons z zs ih =>
    unfold insertDesc
    by_cases h : z.score ≤ x.score
    · rw [if_pos h]
      rfl
    · rw [if_neg h]
      simp [ih]

theorem length_sortByScoreDesc (l : List RAGChunk) :
    (sortByScoreDesc l).length = l.length := by
  induction l with
  | nil => rfl
  | cons z zs ih =>
    unfold sortByScoreDesc
    rw [length_insertDesc, ih, List.length_cons]

theorem sorted_insertDesc {x : RAGChunk} {l : List RAGChunk}
    (h : l.Pairwise (fun a b => b.score ≤ a.score)) :
    (insertDesc x l).Pairwise (fun a b => b.score ≤ a.score) := by
  induction l with
  | nil => simp [insertDesc]
  | cons z zs ih =>
    rcases List.pairwise_cons.mp h with ⟨hz, hzs⟩
    unfold insertDesc
    by_cases hc : z.score ≤ x.score
    · rw [if_pos hc]
      refine List.pairwise_cons.mpr ⟨?_, h⟩
      intro b hb
      rcases List.mem_cons.mp hb with hb | hb
      · rw [hb]
        exact hc
      · exact le_trans (hz b hb) hc
    · rw [if_neg hc]
      refine List.pairwise_cons.mpr ⟨?_, ih hzs⟩
      intro b hb
      rcases mem_insertDesc.mp hb with hb | hb
      · rw [hb]
        exact le_of_lt (lt_of_not_le hc)
      · exact hz b hb

theorem sorted_sortByScoreDesc (l : List RAGChunk) :
    (sortByScoreDesc l).Pairwise (fun a b => b.score ≤ a.score) := by
  induction l with
  | nil => simp [sortByScoreDesc]
  | cons z zs ih =>
    unfold sortByScoreDesc
    exact sorted_insertDesc ih

theorem filter_score_insertDesc (q : ℚ) (x : RAGChunk) (l : List RAGChunk) :
    (insertDesc x l).filter (fun c => decide (c.score = q)) =
      if x.score = q then x :: l.filter (fun c => decide (c.score = q))
      else l.filter (fun c => decide (c.score = q)) := by
  induction l with
  | nil =>
    unfold insertDesc
    by_cases hx : x.score = q
    · rw [if_pos hx]
      simp [List.filter, hx]
    · rw [if_neg hx]
      simp [List.filter, hx]
  | cons z zs ih =>
    unfold insertDesc
    by_cases hc : z.score ≤ x.score
    · rw [if_pos hc]
      by_cases hx : x.score = q
      · rw [if_pos hx, List.filter_cons, if_pos (by simpa using hx)]
      · rw [if_neg hx, List.filter_cons, if_neg (by simpa using hx)]
    · rw [if_neg hc]
      by_cases hx : x.score = q
      · rw [if_pos hx]
        by_cases hz : z.score = q
        · exact absurd (le_of_eq (hz.trans hx.symm)) hc
        · rw [List.filter_cons, if_neg (by simpa using hz), ih, if_pos hx,
            List.filter_cons, if_neg (by simpa using hz)]
      · rw [if_neg hx]
        by_cases hz : z.score = q
        · rw [List.filter_cons, if_pos (by simpa using hz), ih, if_neg hx,
            List.filter_cons, if_pos (by simpa using hz)]
        · rw [List.filter_cons, if_neg (by simpa using hz), ih, if_neg hx,
            List.filter_cons, if_neg (by simpa using hz)]

theorem filter_score_sortByScoreDesc (q : ℚ) (l : List RAGChunk) :
    (sortByScoreDesc l).filter (fun c => decide (c.score = q)) =
      l.filter (fun c => decide (c.score = q)) := by
  induction l with
  | nil => rfl
  | cons z zs ih =>
    unfold sortByScoreDesc
    rw [filter_score_insertDesc]
    by_cases hz : z.score = q
    · rw [if_pos hz, ih, List.filter_cons, if_pos (by simpa using hz)]
    · rw [if_neg hz, ih, List.filter_cons, if_neg (by simpa using hz)]

/-! ## Facts about `createRAGChunks` shared by several claims -/

theorem sentences_trim_ne_nil (text : List Char) :
    ∀ s ∈ sentencesOf text, trim s ≠ [] := by
  intro s hs
  have h := (List.mem_filter.mp hs).2
  simp only [decide_eq_true_eq] at h
  exact List.ne_nil_of_length_pos (by omega)

theorem createRAGChunks_map_index (text : List Char) (size : Nat) :
    (createRAGChunks text size).map (·.chunkIndex) =
      List.range (createRAGChunks text size).length := by
  unfold createRAGChunks
  by_cases h : trim text = []
  · rw [if_pos h]
    rfl
  · rw [if_neg h, List.range_eq_range']
    exact chunkLoop_indices size (sentencesOf text) [] 0

/-! ## The claims -/

/-- C9 (confirmed): every chunk produced by `createRAGChunks` has non-empty
trimmed content, the `chunkIndex` values are exactly `0, 1, 2, …` in
emission order (contiguous, starting at 0, strictly increasing), and an
empty or whitespace-only input yields an empty chunk sequence. -/
theorem claim_C9_chunk_invariants (text : List Char) (size : Nat) :
    ((createRAGChunks text size).map (·.chunkIndex) =
        List.range (createRAGChunks text size).length) ∧
      (∀ ch ∈ createRAGChunks text size,
        ch.content ≠ [] ∧ trim ch.content = ch.content) ∧
      (trim text = [] → createRAGChunks text size = []) := by
  refine ⟨createRAGChunks_map_index text size, ?_, ?_⟩
  · intro ch hch
    unfold createRAGChunks at hch
    by_cases h : trim text = []
    · rw [if_pos h] at hch
      simp at hch
    · rw [if_neg h] at hch
      have hc := chunkLoop_content size (sentencesOf text) [] 0
        (sentences_trim_ne_nil text) noEdgeWs_nil ch hch
      exact ⟨hc.1, hc.2.1⟩
  · intro h
    unfold createRAGChunks
    rw [if_pos h]

theorem claim_C9_witness :
    ((⟨strL "chunk_0", strL "Hello there world", 0, 3, none⟩ : DocumentChunk).content ≠ [] ∧
        trim (⟨strL "chunk_0", strL "Hello there world", 0, 3, none⟩ :
            DocumentChunk).content =
          (⟨strL "chunk_0", strL "Hello there world", 0, 3, none⟩ :
            DocumentChunk).content) ∧
      createRAGChunks (strL "   ") 300 = [] :=
  ⟨(claim_C9_chunk_invariants (strL "Hello there world.") 300).2.1
      ⟨strL "chunk_0", strL "Hello there world", 0, 3, none⟩ (by decide),
    (claim_C9_chunk_invariants (strL "   ") 300).2.2 (by decide)⟩

set_option maxRecDepth 200000 in
/-- C1 (corrected): the original claim — no chunk longer than the target
size except a single over-long sentence — fails: the size check
`currentChunk.length + trimmedSentence.length > chunkSize` ignores the
one-character space separator, so two 150-character sentences are joined
into a 301-character chunk at target 300.  This counterexample exhibits a
chunk of length 301 that is not a single sentence. -/
theorem claim_C1_counterexample :
    ∃ ch ∈ createRAGChunks cexText301 300,
      300 < ch.content.length ∧ ch.content ∉ (sentencesOf cexText301).map trim := by
  with_unfolding_all decide

/-- C1 (corrected, amended): every chunk produced by `createRAGChunks`
either has content length at most `chunkSize + 1` (the extra character
being the space separator ignored by the size check) or is exactly one
trimmed sentence (which may exceed the target arbitrarily). -/
theorem claim_C1_amended (text : List Char) (size : Nat) :
    ∀ ch ∈ createRAGChunks text size,
      ch.content.length ≤ size + 1 ∨ ch.content ∈ (sentencesOf text).map trim := by
  intro ch hch
  unfold createRAGChunks at hch
  by_cases h : trim text = []
  · rw [if_pos h] at hch
    simp at hch
  · rw [if_neg h] at hch
    rcases (chunkLoop_content size (sentencesOf text) [] 0
      (sentences_trim_ne_nil text) noEdgeWs_nil ch hch).2.2 with h1 | h1 | h1
    · exact Or.inl h1
    · exact Or.inr h1
    · rw [h1]
      exact Or.inl (Nat.zero_le _)

theorem claim_C1_amended_witness :
    (⟨strL "chunk_0", strL "Hello there world", 0, 3, none⟩ : DocumentChunk) ∈
        createRAGChunks (strL "Hello there world.") 300 ∧
      ((strL "Hello there world").length ≤ 300 + 1 ∨
        strL "Hello there world" ∈ (sentencesOf (strL "Hello there world.")).map trim) :=
  ⟨by decide, claim_C1_amended (strL "Hello there world.") 300
      ⟨strL "chunk_0", strL "Hello there world", 0, 3, none⟩ (by decide)⟩

set_option maxRecDepth 200000 in
/-- C2 (corrected): the original coverage claim fails: splitting on
`[.!?]+` discards the sentence-terminal punctuation, so the concatenation
of all chunk contents cannot reproduce the whitespace-normalized source
text even when no sentence is below the noise threshold.  For the text
`"Hello there world."` nothing outside the threshold exception is dropped
(the only discarded split field is empty), yet the normalized
concatenation lacks the final period. -/
theorem claim_C2_counterexample :
    (∀ s ∈ splitRuns isPunctS (cleanText (strL "Hello there world.")),
        10 < (trim s).length ∨ (trim s).length < 10) ∧
      cleanText (joinWith [' ']
          ((createRAGChunks (strL "Hello there world.") 300).map (·.content))) ≠
        cleanText (strL "Hello there world.") := by
  with_unfolding_all decide

/-- C2 (corrected, amended): joining all chunk contents with single spaces
reproduces exactly the kept sentences — the trimmed punctuation-free
segments of the normalized text whose trimmed length strictly exceeds 10 —
in order, joined with single spaces.  Sentence-terminal punctuation is
removed, and a sentence of trimmed length exactly 10 is also dropped, so
the normalized source text itself is not reproduced. -/
theorem claim_C2_amended (text : List Char) (size : Nat) :
    joinWith [' '] ((createRAGChunks text size).map (·.content)) =
      joinWith [' '] ((sentencesOf text).map trim) := by
  by_cases h : trim text = []
  · rw [createRAGChunks, if_pos h, sentencesOf_of_trim_nil h]
    rfl
  · rw [createRAGChunks, if_neg h]
    rw [chunkLoop_join size (sentencesOf text) [] 0 (sentences_trim_ne_nil text)
      noEdgeWs_nil]
    rw [if_pos rfl, List.nil_append]

/-- C7 (confirmed): the score of `calculateSemanticSimilarity` always lies
in `[0, 1]`: it is clamped above at 1 and every contributing term (exact
weight, substring weight, variant weight, length bonus, position bonus) is
non-negative. -/
theorem claim_C7_score_range (total : Nat) (query : List Char) (ch : DocumentChunk) :
    0 ≤ calculateSemanticSimilarity total query ch ∧
      calculateSemanticSimilarity total query ch ≤ 1 :=
  ⟨calcSim_nonneg total query ch, calcSim_le_one total query ch⟩

/-- C10 (confirmed): for the query `"???"` the length filter keeps the
token (the filter runs before stripping) and stripping empties it, so the
zero-token short-circuit is not taken; the empty token is a substring of
every content, so every chunk scores at least `0.2 / 1 > 0` regardless of
its content. -/
theorem claim_C10_stray_token :
    queryWordsOf (strL "???") = [[]] ∧
      ∀ (total : Nat) (ch : DocumentChunk),
        0.2 ≤ calculateSemanticSimilarity total (strL "???") ch ∧
          0 < calculateSemanticSimilarity total (strL "???") ch := by
  have htok : queryWordsOf (strL "???") = [[]] := by decide
  refine ⟨htok, ?_⟩
  intro total ch
  have hmain : 0.2 ≤ calculateSemanticSimilarity total (strL "???") ch := by
    unfold calculateSemanticSimilarity
    rw [htok, if_neg (List.cons_ne_nil _ _)]
    apply le_min _ (by norm_num : (0.2 : ℚ) ≤ 1)
    have hws : 0.2 ≤ wordScore (jsLower ch.content) [] := by
      unfold wordScore
      rw [if_pos (containsSub_nil_left _)]
      have h1 : (0 : ℚ) ≤ (countExact [] (jsLower ch.content) : ℚ) * 0.5 :=
        mul_nonneg (Nat.cast_nonneg _) (by norm_num)
      have h2 : (0 : ℚ) ≤ ((variationsOf []).map
          (fun v => if containsSub v (jsLower ch.content) = true then (0.05 : ℚ) else 0)).sum := by
        apply List.sum_nonneg
        intro x hx
        rcases List.mem_map.mp hx with ⟨v, _, rfl⟩
        split <;> norm_num
      linarith
    have h3 := lengthBonus_nonneg ch.content
    have h4 := positionBonus_nonneg total ch.chunkIndex
    simp only [List.map_cons, List.map_nil, List.sum_cons, List.sum_nil, add_zero,
      List.length_cons, List.length_nil, Nat.cast_one, div_one]
    linarith
  exact ⟨hmain, lt_of_lt_of_le (by norm_num) hmain⟩

/-- C5 (confirmed): a query whose whitespace-split tokens all have length
at most 2 leaves zero tokens after the filter, so every chunk scores 0
(the scorer short-circuits before any bonus), the ranking is empty, and
`generateResponse` returns the fixed "no relevant information" message
naming the query and reporting the total chunk count. -/
theorem claim_C5_empty_query (query fullText : List Char) (fileName : Option (List Char))
    (docChunks docChunks2 : List DocumentChunk) (total : Nat) (ch : DocumentChunk)
    (h : ∀ w ∈ splitRuns isWs query, w.length ≤ 2) :
    calculateSemanticSimilarity total query ch = 0 ∧
      findRelevantChunks query docChunks = [] ∧
      generateResponse query [] fullText fileName docChunks2 =
        strL "К сожалению, в документе \"" ++ jsOr (fileName.getD []) (strL "документ") ++
          strL "\" не найдено информации, релевантной вашему запросу \"" ++ query ++
          strL "\". \n\nВозможные причины:\n• Информация отсутствует в документе\n• Попробуйте переформулировать вопрос\n• Используйте другие ключевые слова\n\nВсего создано " ++
          natChars docChunks2.length ++ strL " чанков для анализа." := by
  refine ⟨calcSim_zero_of_short_tokens h total ch, ?_, rfl⟩
  unfold findRelevantChunks
  by_cases hd : docChunks = []
  · rw [if_pos hd]
  · rw [if_neg hd]
    have hfil : (scoredChunks query docChunks).filter
        (fun c => decide ((0.01 : ℚ) < c.score)) = [] := by
      rw [List.filter_eq_nil_iff]
      intro c hc
      rcases List.mem_map.mp hc with ⟨ch0, _, rfl⟩
      simp only [decide_eq_true_eq]
      rw [calcSim_zero_of_short_tokens h]
      norm_num
    rw [hfil]
    rfl

theorem claim_C5_witness :
    calculateSemanticSimilarity 1 (strL "ab cd") (cexChunk []) = 0 ∧
      findRelevantChunks (strL "ab cd") [cexChunk []] = [] ∧
      generateResponse (strL "ab cd") [] [] none [] =
        strL "К сожалению, в документе \"" ++ jsOr ((none : Option (List Char)).getD []) (strL "документ") ++
          strL "\" не найдено информации, релевантной вашему запросу \"" ++ strL "ab cd" ++
          strL "\". \n\nВозможные причины:\n• Информация отсутствует в документе\n• Попробуйте переформулировать вопрос\n• Используйте другие ключевые слова\n\nВсего создано " ++
          natChars ([] : List DocumentChunk).length ++ strL " чанков для анализа." :=
  claim_C5_empty_query (strL "ab cd") [] none [cexChunk []] [] 1 (cexChunk []) (by decide)

/-- C6 (confirmed): when the query has at least one surviving token and the
chunk set is a non-empty `createRAGChunks` result, `findRelevantChunks` is
never empty: the chunk with `chunkIndex` 0 receives a position bonus of
exactly `0.1`, which already exceeds the `0.01` relevance threshold even
with no token occurrence; consequently the "no relevant information"
branch of `generateResponse` is unreachable on such inputs — the response
always takes the non-empty branch. -/
theorem claim_C6_first_chunk_bonus (text query fullText : List Char)
    (fileName : Option (List Char)) (docChunks2 : List DocumentChunk)
    (hq : queryWordsOf query ≠ []) (hc : createRAGChunks text 300 ≠ []) :
    positionBonus (createRAGChunks text 300).length 0 = 0.1 ∧
      findRelevantChunks query (createRAGChunks text 300) ≠ [] ∧
      ∃ top rest, findRelevantChunks query (createRAGChunks text 300) = top :: rest ∧
        generateResponse query (findRelevantChunks query (createRAGChunks text 300))
            fullText fileName docChunks2 =
          responseIntro query top docChunks2 ++ responseBody (top :: rest) top ++
            statsInfo (top :: rest) top docChunks2 := by
  obtain ⟨c0, tl, hcs⟩ := List.exists_cons_of_ne_nil hc
  have hidx0 : c0.chunkIndex = 0 := by
    have hmap := createRAGChunks_map_index text 300
    rw [hcs, List.map_cons, List.length_cons, List.range_eq_range',
      List.range'_succ] at hmap
    exact (List.cons_eq_cons.mp hmap).1
  have hfil : (scoredChunks query (createRAGChunks text 300)).filter
      (fun c => decide ((0.01 : ℚ) < c.score)) ≠ [] := by
    rw [hcs, scoredChunks, List.map_cons, List.filter_cons, if_pos]
    · exact List.cons_ne_nil _ _
    · rw [decide_eq_true_eq]
      exact lt_of_lt_of_le (by norm_num)
        (calcSim_of_index_zero hq (c0 :: tl).length c0 hidx0)
  have hne : findRelevantChunks query (createRAGChunks text 300) ≠ [] := by
    unfold findRelevantChunks
    rw [if_neg hc]
    intro htake
    rcases List.take_eq_nil_iff.mp htake with h5 | hnil
    · exact absurd h5 (by norm_num)
    · have hlen := length_sortByScoreDesc ((scoredChunks query
        (createRAGChunks text 300)).filter (fun c => decide ((0.01 : ℚ) < c.score)))
      rw [hnil] at hlen
      exact hfil (List.eq_nil_of_length_eq_zero hlen.symm)
  refine ⟨positionBonus_zero _, hne, ?_⟩
  obtain ⟨top, rest, hfr⟩ := List.exists_cons_of_ne_nil hne
  refine ⟨top, rest, hfr, ?_⟩
  rw [hfr]
  rfl

theorem claim_C6_witness :
    positionBonus (createRAGChunks (strL "Hello there world.") 300).length 0 = 0.1 ∧
      findRelevantChunks (strL "cat") (createRAGChunks (strL "Hello there world.") 300) ≠ [] ∧
      ∃ top rest,
        findRelevantChunks (strL "cat") (createRAGChunks (strL "Hello there world.") 300) =
            top :: rest ∧
          generateResponse (strL "cat")
              (findRelevantChunks (strL "cat") (createRAGChunks (strL "Hello there world.") 300))
              [] none [] =
            responseIntro (strL "cat") top [] ++ responseBody (top :: rest) top ++
              statsInfo (top :: rest) top [] :=
  claim_C6_first_chunk_bonus (strL "Hello there world.") (strL "cat") [] none []
    (by decide) (by decide)

/-- C4 (confirmed): `findRelevantChunks` keeps only chunks scoring strictly
above `0.01`, sorts them in descending score order, preserves document
order among equal scores (its equal-score restriction is a subsequence of
the document-order scored enumeration), and returns at most 5 chunks. -/
theorem claim_C4_ranking_shape (query : List Char) (docChunks : List DocumentChunk) :
    (findRelevantChunks query docChunks).length ≤ 5 ∧
      (∀ c ∈ findRelevantChunks query docChunks, (0.01 : ℚ) < c.score) ∧
      (findRelevantChunks query docChunks).Pairwise (fun a b => b.score ≤ a.score) ∧
      ∀ q : ℚ,
        List.Sublist
          ((findRelevantChunks query docChunks).filter (fun c => decide (c.score = q)))
          (scoredChunks query docChunks) := by
  unfold findRelevantChunks
  by_cases hd : docChunks = []
  · rw [if_pos hd]
    refine ⟨by simp, by simp, by simp, ?_⟩
    intro q
    exact List.nil_sublist _
  · rw [if_neg hd]
    refine ⟨List.length_take_le 5 _, ?_, ?_, ?_⟩
    · intro c hc
      have hmem : c ∈ sortByScoreDesc ((scoredChunks query docChunks).filter
          (fun c => decide ((0.01 : ℚ) < c.score))) := List.mem_of_mem_take hc
      have hmem2 := mem_sortByScoreDesc.mp hmem
      have := (List.mem_filter.mp hmem2).2
      simpa using this
    · exact List.Pairwise.sublist (List.take_sublist 5 _) (sorted_sortByScoreDesc _)
    · intro q
      have hpre := List.take_prefix 5 (sortByScoreDesc ((scoredChunks query docChunks).filter
        (fun c => decide ((0.01 : ℚ) < c.score))))
      have hpf := List.IsPrefix.filter (fun c => decide (c.score = q)) hpre
      have hsub1 := List.IsPrefix.sublist hpf
      rw [filter_score_sortByScoreDesc] at hsub1
      exact hsub1.trans ((List.filter_sublist _).trans (List.filter_sublist _))

theorem claim_C4_witness :
    (findRelevantChunks (strL "cat") [cexChunk (strL "cat here")]).length ≤ 5 ∧
      (findRelevantChunks (strL "cat") [cexChunk (strL "cat here")]).Pairwise
        (fun a b => b.score ≤ a.score) :=
  ⟨(claim_C4_ranking_shape (strL "cat") [cexChunk (strL "cat here")]).1,
    (claim_C4_ranking_shape (strL "cat") [cexChunk (strL "cat here")]).2.2.1⟩

/-- C8 (confirmed): in `generateResponse`, when at least 2 ranked chunks
score strictly above `0.3`, the body is the first two such chunks,
numbered `1.` and `2.`, in ranking (hence, for equal scores, original
document) order; otherwise the body is exactly the top-ranked chunk's
content.  Two chunks both scoring `0.4` therefore both appear. -/
theorem claim_C8_body_selection (query fullText : List Char)
    (fileName : Option (List Char)) (docChunks : List DocumentChunk)
    (top : RAGChunk) (rest : List RAGChunk) :
    (∀ a b t,
        (top :: rest).filter (fun c => decide ((0.3 : ℚ) < c.score)) = a :: b :: t →
        generateResponse query (top :: rest) fullText fileName docChunks =
          responseIntro query top docChunks ++
            (strL "1. " ++ a.content ++ strL "\n\n" ++ (strL "2. " ++ b.content)) ++
            statsInfo (top :: rest) top docChunks) ∧
      (((top :: rest).filter (fun c => decide ((0.3 : ℚ) < c.score))).length < 2 →
        generateResponse query (top :: rest) fullText fileName docChunks =
          responseIntro query top docChunks ++ top.content ++
            statsInfo (top :: rest) top docChunks) := by
  constructor
  · intro a b t hf
    show responseIntro query top docChunks ++ responseBody (top :: rest) top ++
        statsInfo (top :: rest) top docChunks = _
    have hbody : responseBody (top :: rest) top =
        strL "1. " ++ a.content ++ strL "\n\n" ++ (strL "2. " ++ b.content) := by
      unfold responseBody
      rw [hf]
      rw [if_pos (by simp)]
      have h1 : natChars 1 = strL "1" := rfl
      have h2 : natChars 2 = strL "2" := rfl
      simp only [List.take_succ_cons, List.take_zero, numberChunks, h1, h2, joinWith,
        List.append_assoc]
      rfl
    rw [hbody]
  · intro hlen
    show responseIntro query top docChunks ++ responseBody (top :: rest) top ++
        statsInfo (top :: rest) top docChunks = _
    have hbody : responseBody (top :: rest) top = top.content := by
      unfold responseBody
      rw [if_neg (by omega)]
    rw [hbody]

theorem claim_C8_witness :
    ((⟨strL "AAA", 0.4, strL "s1"⟩ : RAGChunk) ::
          [(⟨strL "BBB", 0.4, strL "s2"⟩ : RAGChunk)]).filter
        (fun c => decide ((0.3 : ℚ) < c.score)) =
      (⟨strL "AAA", 0.4, strL "s1"⟩ : RAGChunk) ::
        (⟨strL "BBB", 0.4, strL "s2"⟩ : RAGChunk) :: [] ∧
      generateResponse (strL "тест")
          ((⟨strL "AAA", 0.4, strL "s1"⟩ : RAGChunk) ::
            [(⟨strL "BBB", 0.4, strL "s2"⟩ : RAGChunk)]) [] none [] =
        responseIntro (strL "тест") (⟨strL "AAA", 0.4, strL "s1"⟩ : RAGChunk) [] ++
          (strL "1. " ++ (⟨strL "AAA", 0.4, strL "s1"⟩ : RAGChunk).content ++
            strL "\n\n" ++
            (strL "2. " ++ (⟨strL "BBB", 0.4, strL "s2"⟩ : RAGChunk).content)) ++
          statsInfo ((⟨strL "AAA", 0.4, strL "s1"⟩ : RAGChunk) ::
              [(⟨strL "BBB", 0.4, strL "s2"⟩ : RAGChunk)])
            (⟨strL "AAA", 0.4, strL "s1"⟩ : RAGChunk) [] :=
  ⟨by with_unfolding_all decide,
    (claim_C8_body_selection (strL "тест") [] none []
        (⟨strL "AAA", 0.4, strL "s1"⟩ : RAGChunk)
        [(⟨strL "BBB", 0.4, strL "s2"⟩ : RAGChunk)]).1 _ _ []
      (by with_unfolding_all decide)⟩

set_option maxRecDepth 200000 in
/-- C3 (corrected): the original claim — more exact occurrences never
decrease the score — fails: appending one more exact occurrence of `cat`
pushes the content from 500 to 504 characters, the `0.1` length bonus is
lost, and with six query tokens the exact-match gain `0.5 / 6` does not
compensate, so the score drops from `19/60` to `3/10`. -/
theorem claim_C3_counterexample :
    countExact (strL "cat") (jsLower cexContent) <
        countExact (strL "cat") (jsLower cexContentMore) ∧
      calculateSemanticSimilarity 1 cexQuery (cexChunk cexContentMore) <
        calculateSemanticSimilarity 1 cexQuery (cexChunk cexContent) := by
  with_unfolding_all decide

/-- C3 (corrected, amended): appending text after a space separator —
the canonical way to add exact whole-word occurrences of a query token —
never decreases the score, provided the chunk's length bonus does not
decrease; every matching term (exact count, substring containment, variant
containment) is monotone under such an extension, and only crossing the
`[100, 500]` length-bonus window can lower the total. -/
theorem claim_C3_amended (total : Nat) (query d : List Char)
    (ch chMore : DocumentChunk) (hcontent : chMore.content = ch.content ++ ' ' :: d)
    (hidx : chMore.chunkIndex = ch.chunkIndex)
    (hlb : lengthBonus ch.content ≤ lengthBonus chMore.content) :
    calculateSemanticSimilarity total query ch ≤
      calculateSemanticSimilarity total query chMore := by
  unfold calculateSemanticSimilarity
  by_cases hq : queryWordsOf query = []
  · rw [if_pos hq, if_pos hq]
  · rw [if_neg hq, if_neg hq]
    apply min_le_min _ le_rfl
    have hsum : ((queryWordsOf query).map (wordScore (jsLower ch.content))).sum ≤
        ((queryWordsOf query).map (wordScore (jsLower chMore.content))).sum := by
      apply List.sum_le_sum
      intro w hw
      rw [hcontent, jsLower_append_space]
      exact wordScore_append_space (queryWords_no_space query w hw) _ _
    have hdiv := div_le_div_of_nonneg_right hsum
      (Nat.cast_nonneg (queryWordsOf query).length)
    have hpb : positionBonus total chMore.chunkIndex =
        positionBonus total ch.chunkIndex := by rw [hidx]
    linarith

theorem claim_C3_amended_witness :
    (cexChunk (strL "dog cat")).content = (cexChunk (strL "dog")).content ++ ' ' :: strL "cat" ∧
      (cexChunk (strL "dog cat")).chunkIndex = (cexChunk (strL "dog")).chunkIndex ∧
      lengthBonus (cexChunk (strL "dog")).content ≤
        lengthBonus (cexChunk (strL "dog cat")).content ∧
      calculateSemanticSimilarity 1 cexQuery (cexChunk (strL "dog")) ≤
        calculateSemanticSimilarity 1 cexQuery (cexChunk (strL "dog cat")) :=
  ⟨by decide, rfl, by with_unfolding_all decide,
    claim_C3_amended 1 cexQuery (strL "cat") (cexChunk (strL "dog"))
      (cexChunk (strL "dog cat")) (by decide) rfl (by with_unfolding_all decide)⟩

end RAG
